import Mathlib

/-!
# Verification of the Git-Clone storage engine (`src/gitimpl.py`)

A shallow embedding of the content-addressable object store, tree builder,
pkt-line demultiplexer, pack entry-header decoder and delta resolver of
`gitimpl.py`, together with theorems settling the claims of the specification.

Bytes are modelled as natural numbers (kept below 256 by construction where
it matters); Python `bytes` values are `List Nat`.  Machine-library calls
(`hashlib.sha1`, `zlib`) are modelled by executable Lean functions: SHA-1 is
implemented in full, and the zlib codec is modelled by an explicit lossless,
self-delimiting codec capturing the contract the Python code relies on
(`decompress (compress x) = x`, streaming decompression exposing unused
trailing input, and failure on malformed input).
-/

namespace GitClone

/-- Python `bytes` are lists of byte values. -/
abbrev Bytes := List Nat

/-! ## SHA-1 (model of the Python `hashlib.sha1`) -/

/-- Truncation to a 32-bit word. -/
def w32 (n : Nat) : Nat := n % 4294967296

/-- Left rotation of a 32-bit word by `k` bits (`n` assumed `< 2^32`). -/
def rotl (k n : Nat) : Nat := w32 (n <<< k) ||| (n >>> (32 - k))

/-- Big-endian 4-byte encoding of a 32-bit word. -/
def be4 (n : Nat) : Bytes := [n >>> 24 % 256, n >>> 16 % 256, n >>> 8 % 256, n % 256]

/-- Big-endian 8-byte encoding of a 64-bit value. -/
def be8 (n : Nat) : Bytes :=
  [n >>> 56 % 256, n >>> 48 % 256, n >>> 40 % 256, n >>> 32 % 256,
   n >>> 24 % 256, n >>> 16 % 256, n >>> 8 % 256, n % 256]

/-- SHA-1 message padding: `0x80`, zeros to 56 mod 64, then the bit length. -/
def sha1pad (msg : Bytes) : Bytes :=
  msg ++ 128 :: List.replicate ((119 - msg.length % 64) % 64) 0 ++ be8 (8 * msg.length)

/-- Split into 64-byte chunks (fuel-driven so that it reduces by evaluation). -/
def chunks64 : Nat → Bytes → List Bytes
  | 0, _ => []
  | _, [] => []
  | fuel + 1, l => l.take 64 :: chunks64 fuel (l.drop 64)

/-- Big-endian 32-bit words of a chunk. -/
def wordsBE : Bytes → List Nat
  | a :: b :: c :: d :: rest => (((a * 256 + b) * 256 + c) * 256 + d) :: wordsBE rest
  | _ => []

/-- Message-schedule extension; the word list is kept reversed (newest first). -/
def sha1extend : Nat → List Nat → List Nat
  | 0, rev => rev
  | k + 1, rev =>
      sha1extend k
        (rotl 1 ((rev.getD 2 0) ^^^ (rev.getD 7 0) ^^^ (rev.getD 13 0) ^^^ (rev.getD 15 0)) :: rev)

/-- SHA-1 round function. -/
def sha1f (i b c d : Nat) : Nat :=
  if i < 20 then (b &&& c) ||| ((b ^^^ 4294967295) &&& d)
  else if i < 40 then b ^^^ c ^^^ d
  else if i < 60 then (b &&& c) ||| (b &&& d) ||| (c &&& d)
  else b ^^^ c ^^^ d

/-- SHA-1 round constants. -/
def sha1k (i : Nat) : Nat :=
  if i < 20 then 1518500249 else if i < 40 then 1859775393
  else if i < 60 then 2400959708 else 3395469782

/-- The 80 compression rounds over the message schedule. -/
def sha1rounds : List Nat → Nat → Nat × Nat × Nat × Nat × Nat → Nat × Nat × Nat × Nat × Nat
  | [], _, st => st
  | w :: ws, i, (a, b, c, d, e) =>
      sha1rounds ws (i + 1) (w32 (rotl 5 a + sha1f i b c d + e + sha1k i + w), a, rotl 30 b, c, d)

/-- Process one 64-byte chunk. -/
def sha1chunk (h : Nat × Nat × Nat × Nat × Nat) (chunk : Bytes) : Nat × Nat × Nat × Nat × Nat :=
  let ws := (sha1extend 64 (wordsBE chunk).reverse).reverse
  let r := sha1rounds ws 0 h
  (w32 (h.1 + r.1), w32 (h.2.1 + r.2.1), w32 (h.2.2.1 + r.2.2.1),
   w32 (h.2.2.2.1 + r.2.2.2.1), w32 (h.2.2.2.2 + r.2.2.2.2))

/-- SHA-1 digest (20 bytes) of a byte string. -/
def sha1 (msg : Bytes) : Bytes :=
  let padded := sha1pad msg
  let h := (chunks64 padded.length padded).foldl sha1chunk
    (1732584193, 4023233417, 2562383102, 271733878, 3285377520)
  be4 h.1 ++ be4 h.2.1 ++ be4 h.2.2.1 ++ be4 h.2.2.2.1 ++ be4 h.2.2.2.2

/-- Lowercase hex digit characters. -/
def hexChar (n : Nat) : Char := if n < 10 then Char.ofNat (48 + n) else Char.ofNat (87 + n)

/-- Lowercase hex rendering of bytes, as the Python `bytes.hex` / `hexdigest`. -/
def bytesHex (bs : Bytes) : String := ⟨(bs.map (fun b => [hexChar (b / 16 % 16), hexChar (b % 16)])).flatten⟩

/-- UTF-8 encoding of a string, restricted to the ASCII fragment used by the code. -/
def strBytes (s : String) : Bytes := s.data.map Char.toNat

/-- Python `bytes.decode()`, restricted to the ASCII fragment: fails
(`UnicodeDecodeError`, a `ValueError`) outside it. -/
def bytesDecode (bs : Bytes) : Option String :=
  if bs.all (· < 128) then some ⟨bs.map Char.ofNat⟩ else none

/-- Decimal digits of a number, mirroring the Python decimal formatting (fuel-driven). -/
def natDecimalAux : Nat → Nat → Bytes
  | 0, _ => []
  | _ + 1, 0 => []
  | fuel + 1, n + 1 => natDecimalAux fuel ((n + 1) / 10) ++ [(n + 1) % 10 + 48]

/-- ASCII decimal rendering of a natural number, as the Python format string produces. -/
def natDecimal (n : Nat) : Bytes := if n = 0 then [48] else natDecimalAux n n

/-! ## Python exceptions

The errors the embedded code can raise, named after the Python exception
classes.  The taxonomy of the specification maps onto them: `NotFound` is
`fileNotFound`, `DecodeError` covers `zlibError` and `valueError`
(`UnicodeDecodeError` is a `ValueError` subclass), `TransportError` covers
HTTP-level failures (out of scope here). -/
inductive PyErr
  | fileNotFound
  | zlibError
  | valueError
  | indexError
  | structError
  deriving DecidableEq, Repr

/-- The `NotFound` error class of the spec. -/
def isNotFound (e : PyErr) : Prop := e = .fileNotFound

/-- The `DecodeError` error class of the spec (corrupt compressed data or malformed
header: `zlib.error` or `ValueError` in the Python code). -/
def isDecodeError (e : PyErr) : Prop := e = .zlibError ∨ e = .valueError

/-! ## zlib model

`zlib.compress` / `zlib.decompress` / `zlib.decompressobj` are modelled by an
explicit executable codec with the contract the Python code relies on:
compression is lossless, a compressed stream is self-delimiting so a streaming
decompressor can report the unused trailing input (`unused_data`), and
decompression of malformed input fails with `zlib.error`.  The model stream is
`0x78 :: 0x9C :: <unary length> :: 0 :: <payload>`. -/

/-- Model of `zlib.compress`. -/
def zcompress (bs : Bytes) : Bytes := 120 :: 156 :: List.replicate bs.length 1 ++ 0 :: bs

/-- Parse the unary length field of the model codec. -/
def parseLen : Bytes → Option (Nat × Bytes)
  | 0 :: rest => some (0, rest)
  | 1 :: rest => (parseLen rest).map (fun p => (p.1 + 1, p.2))
  | _ => none

/-- Take exactly `n` bytes, failing when fewer are available. -/
def takeExact (n : Nat) (bs : Bytes) : Option (Bytes × Bytes) :=
  if n ≤ bs.length then some (bs.take n, bs.drop n) else none

/-- Model of `zlib.decompressobj().decompress`: the decompressed payload plus
the unused trailing input (`unused_data`); `none` is `zlib.error`. -/
def zdecompObj : Bytes → Option (Bytes × Bytes)
  | 120 :: 156 :: rest => do
      let (n, rest) ← parseLen rest
      takeExact n rest
  | _ => none

/-- Model of one-shot `zlib.decompress`, which rejects trailing garbage. -/
def zdecompress (bs : Bytes) : Option Bytes :=
  match zdecompObj bs with
  | some (content, []) => some content
  | _ => none

/-! ## Object store -/

/-- The on-disk object directory of one repository (`<parent>/.git/objects`),
keyed by the hash whose split `(sha[:2], sha[2:])` names the file path; the
split is injective, so the full hash string is the key.  Values are the raw
(compressed) file bytes.  Later writes shadow earlier ones, as file overwrite
does. -/
abbrev Store := List (String × Bytes)

/-- Look up the file stored for a hash. -/
def lookupStore (st : Store) (sha : String) : Option Bytes :=
  match st with
  | [] => none
  | (k, v) :: rest => if k = sha then some v else lookupStore rest sha

/-- Write (or overwrite) the file stored for a hash. -/
def insertStore (st : Store) (sha : String) (v : Bytes) : Store := (sha, v) :: st

/-- `write_object(parent, ty, content)` of `gitimpl.py` (lines 32–42): build the
header `"<ty> <len>\0"`, hash `header + content` with SHA-1, store the
compressed bytes under the hex hash, return the hex hash.  Returns the new
store alongside. -/
def write_object (st : Store) (ty : String) (content : Bytes) : String × Store :=
  let header := strBytes ty ++ 32 :: natDecimal content.length ++ [0]
  let stored := header ++ content
  let hash := bytesHex (sha1 stored)
  (hash, insertStore st hash (zcompress stored))

/-- Embedding of the Python `bytes.split(sep, maxsplit=1)` with a one-byte separator,
returning `none` when the separator is absent (in which case the Python
two-variable unpacking raises `ValueError`). -/
def splitFirst (sep : Nat) : Bytes → Option (Bytes × Bytes)
  | [] => none
  | b :: rest =>
      if b = sep then some ([], rest)
      else (splitFirst sep rest).map (fun p => (b :: p.1, p.2))

/-- Embedding of the Python `bytes.split(sep)` with a one-byte separator (no collapsing of
empty fields, as in Python). -/
def splitAll (sep : Nat) : Bytes → List Bytes
  | [] => [[]]
  | b :: rest =>
      if b = sep then [] :: splitAll sep rest
      else match splitAll sep rest with
        | [] => [[b]]
        | p :: ps => (b :: p) :: ps

/-- Header parsing step of `read_object`: split the decompressed bytes on the
first NUL (`ValueError` from the two-variable unpacking when absent), split the
header on spaces into exactly `ty` and the declared length (`ValueError`
otherwise), and return `(ty.decode(), content)`.  The declared length is never
parsed and the kind token is never validated. -/
def parseObject (dec : Bytes) : Except PyErr (String × Bytes) :=
  match splitFirst 0 dec with
  | none => .error .valueError
  | some (head, content) =>
    match splitAll 32 head with
    | [ty, _] =>
      match bytesDecode ty with
      | some s => .ok (s, content)
      | none => .error .valueError
    | _ => .error .valueError

/-- Embedding of `read_object(parent, sha)` (`gitimpl.py` lines 23–30): read
the file at the path derived from the hash (`FileNotFoundError` when absent),
decompress (`zlib.error` on corrupt data), then parse header and content. -/
def read_object (st : Store) (sha : String) : Except PyErr (String × Bytes) :=
  match lookupStore st sha with
  | none => .error .fileNotFound
  | some bs =>
    match zdecompress bs with
    | none => .error .zlibError
    | some dec => parseObject dec

/-! ## Pack entry headers and size varints (`next_size_type`, `next_size`) -/

/-- Continuation-byte loop shared by the two varint decoders: while the
previous byte has its high bit set, the next byte contributes 7 more bits at
the current offset; running off the end of the input is `IndexError`. -/
def contBytes : Nat → Nat → Nat → Bytes → Except PyErr (Nat × Bytes)
  | prev, size, _, [] => if prev &&& 128 = 0 then .ok (size, []) else .error .indexError
  | prev, size, off, x :: rest =>
    if prev &&& 128 = 0 then .ok (size, x :: rest)
    else contBytes x (size + (x &&& 127) <<< off) (off + 7) rest

/-- Type-number-to-token table of `next_size_type` (`type_map.get(ty, "unknown")`). -/
def type_map (ty : Nat) : String :=
  if ty = 1 then "commit" else if ty = 2 then "tree" else if ty = 3 then "blob"
  else if ty = 4 then "tag" else if ty = 6 then "ofs_delta" else if ty = 7 then "ref_delta"
  else "unknown"

/-- Embedding of `next_size_type` (`gitimpl.py` lines 359–368): bits 4–6 of the
first byte select the kind, bits 0–3 seed the size, continuation bytes add
7 bits each starting at offset 4. -/
def next_size_type : Bytes → Except PyErr (String × Nat × Bytes)
  | [] => .error .indexError
  | b :: rest => do
    let (size, rest) ← contBytes b (b &&& 15) 4 rest
    .ok (type_map ((b &&& 112) >>> 4), size, rest)

/-- Embedding of `next_size` (`gitimpl.py` lines 370–376): the delta-size
varint, 7 bits per byte starting at offset 7, no type field. -/
def next_size : Bytes → Except PyErr (Nat × Bytes)
  | [] => .error .indexError
  | b :: rest => contBytes b (b &&& 127) 7 rest

/-! ## Delta resolution (the `ref_delta` loop of `main`, lines 394–413) -/

/-- Embedding of the two partial-field loops of the copy op: for each listed
`(bit, shift)` pair, when the op byte has `bit` set the byte at the data
pointer is or-ed in at `shift` and the pointer advances; a missing byte is
`IndexError`.  Returns the accumulated field and the final pointer. -/
def copyField (op : Nat) : List (Nat × Nat) → Nat → Nat → Bytes → Except PyErr (Nat × Nat)
  | [], ptr, acc, _ => .ok (acc, ptr)
  | (bit, shift) :: rest, ptr, acc, content =>
    if op &&& (1 <<< bit) ≠ 0 then
      match content.get? ptr with
      | none => .error .indexError
      | some x => copyField op rest (ptr + 1) (acc ||| x <<< shift) content
    else copyField op rest ptr acc content

/-- Embedding of the `while content:` copy/insert loop: a set top bit is a
copy op (little-endian offset from bits 0–3, size from bits 4–6, appending
`base[offset:offset+size]` with Python slice clamping), a clear top bit is an
insert of the next `content[0]` bytes.  Fuel-driven; fuel equal to the length
of the instruction stream is exact since every iteration consumes at least one
byte. -/
def deltaLoop : Nat → Bytes → Bytes → Bytes → Except PyErr Bytes
  | _, _, [], target => .ok target
  | 0, _, _, target => .ok target
  | fuel + 1, base, op :: rest, target =>
    if op &&& 128 ≠ 0 then do
      let (offset, p1) ← copyField op [(0, 0), (1, 8), (2, 16), (3, 24)] 1 0 (op :: rest)
      let (size, p2) ← copyField op [(4, 0), (5, 8), (6, 16)] p1 0 (op :: rest)
      deltaLoop fuel base ((op :: rest).drop p2) (target ++ (base.drop offset).take size)
    else
      deltaLoop fuel base (rest.drop op) (target ++ rest.take op)

/-- Embedding of the delta-resolution pipeline (lines 392–413): skip the two
leading size varints, then run the copy/insert loop against the base content. -/
def resolveDelta (base content : Bytes) : Except PyErr Bytes := do
  let (_, c1) ← next_size content
  let (_, c2) ← next_size c1
  deltaLoop c2.length base c2 []

/-! ## Pack entry loop (`for _ in range(n_objs)` of `main`, lines 378–413) -/

/-- Embedding of one iteration of the pack entry loop: decode the entry
header; a direct kind is decompressed and stored, `ref_delta` reads a 20-byte
base hash, decompresses the delta, resolves it against the base from the store
and stores the result as a blob; any other kind token falls through both
branches, storing nothing and leaving the cursor at the entry body. -/
def processEntry (st : Store) (pf : Bytes) : Except PyErr (Store × Bytes) := do
  let (ty, _, pf) ← next_size_type pf
  if ty = "commit" ∨ ty = "tree" ∨ ty = "blob" ∨ ty = "tag" then
    match zdecompObj pf with
    | none => .error .zlibError
    | some (content, unused) => .ok ((write_object st ty content).2, unused)
  else if ty = "ref_delta" then
    let base_sha := bytesHex (pf.take 20)
    match zdecompObj (pf.drop 20) with
    | none => .error .zlibError
    | some (content, unused) => do
      let (_, base_content) ← read_object st base_sha
      let target ← resolveDelta base_content content
      .ok ((write_object st "blob" target).2, unused)
  else .ok (st, pf)

/-- Embedding of the entry loop itself: exactly `n` iterations of
`processEntry`, threading the store and the cursor; leftover bytes after the
last entry are ignored, as in the source. -/
def processEntries : Nat → Store → Bytes → Except PyErr Store
  | 0, st, _ => .ok st
  | n + 1, st, pf => do
    let (st', pf') ← processEntry st pf
    processEntries n st' pf'

/-! ## Pkt-line demultiplexing (`main`, lines 347–357) -/

/-- Hex digit value of an ASCII byte (both cases), as accepted by
`int(_, 16)`. -/
def hexDigitVal (b : Nat) : Option Nat :=
  if 48 ≤ b ∧ b ≤ 57 then some (b - 48)
  else if 97 ≤ b ∧ b ≤ 102 then some (b - 87)
  else if 65 ≤ b ∧ b ≤ 70 then some (b - 55)
  else none

/-- Embedding of `int(pack_bytes[:4], 16)`, restricted to the four-hex-digit
form the protocol uses (the model rejects shorter prefixes, which the loop
never sees on a well-formed stream); failure is `ValueError`. -/
def parseHex4 : Bytes → Option Nat
  | a :: b :: c :: d :: _ => do
    let x ← hexDigitVal a
    let y ← hexDigitVal b
    let z ← hexDigitVal c
    let w ← hexDigitVal d
    some (((x * 16 + y) * 16 + z) * 16 + w)
  | _ => none

/-- Embedding of the `while pack_bytes:` framing loop: read the 4-hex-digit
length, stop at a zero-length line, otherwise collect bytes 4..len as the
line payload and advance by len.  Fuel-driven; fuel equal to the remaining
length is exact since every iteration consumes at least one byte. -/
def pktLines : Nat → Bytes → Except PyErr (List Bytes)
  | _, [] => .ok []
  | 0, _ => .ok []
  | fuel + 1, bs =>
    match parseHex4 bs with
    | none => .error .valueError
    | some 0 => .ok []
    | some len => do
      let rest ← pktLines fuel (bs.drop len)
      .ok ((bs.drop 4).take (len - 4) :: rest)

/-- Big-endian value of a byte string (`struct.unpack("!I", _)` on 4 bytes). -/
def beNat4 (bs : Bytes) : Nat := bs.foldl (fun a b => a * 256 + b) 0

/-- Embedding of the demultiplexing pipeline (lines 347–357): split the body
into pkt-lines, drop the first line, strip one sideband byte from each
remaining payload, concatenate, drop the 8-byte signature/version prefix,
then read the 4-byte big-endian object count (`struct.error` when fewer than
4 bytes remain). -/
def extractPack (body : Bytes) : Except PyErr (Nat × Bytes) := do
  let lines ← pktLines body.length body
  let pack_file := ((lines.drop 1).map (List.drop 1)).flatten.drop 8
  if 4 ≤ pack_file.length then
    .ok (beNat4 (pack_file.take 4), pack_file.drop 4)
  else .error .structError

/-- Lowercase hex digit byte of a nibble. -/
def hexByte (n : Nat) : Nat := if n < 10 then 48 + n else 87 + n

/-- Canonical 4-hex-digit length prefix of a pkt-line. -/
def hex4 (n : Nat) : Bytes :=
  [hexByte (n / 4096 % 16), hexByte (n / 256 % 16), hexByte (n / 16 % 16), hexByte (n % 16)]

/-- Canonical pkt-line framing of a list of payloads: each line is its
length-plus-4 prefix followed by the payload, with a zero-length terminator
line.  This is the spec-side description of the wire format (spec section 4.3),
used to state the demultiplexing claim. -/
def pktFrame (payloads : List Bytes) : Bytes :=
  (payloads.map (fun p => hex4 (p.length + 4) ++ p)).flatten ++ [48, 48, 48, 48]

/-- Little-endian base-128 varint encoding with continuation bits, the
spec-side description (spec section 4.5) of the size fields read by
`next_size`.  Fuel-driven; fuel `n` suffices for value `n`. -/
def encSizeAux : Nat → Nat → Bytes
  | 0, _ => []
  | fuel + 1, n => if n < 128 then [n] else (n % 128 + 128) :: encSizeAux fuel (n / 128)

/-- Varint encoding of a declared delta size. -/
def encSize (n : Nat) : Bytes := encSizeAux (n + 1) n

/-! ## Tree builder (`write_tree`, lines 193–222) -/

/-- A directory tree as seen by the walk: a file carries its content, or
`none` when `read_bytes` raises (the unreadable-file branch); a directory
carries its children. -/
inductive FS
  | file (name : String) (content : Option Bytes)
  | dir (name : String) (children : List FS)

/-- Name of a filesystem node. -/
def fsName : FS → String
  | .file n _ => n
  | .dir n _ => n

/-- Lexicographic order on byte strings, the order Python `sorted` applies to
the sibling paths of one directory (comparison by code point). -/
def lexLe : Bytes → Bytes → Bool
  | [], _ => true
  | _ :: _, [] => false
  | a :: as, b :: bs => if a < b then true else if b < a then false else lexLe as bs

/-- Sibling order used by `sorted(p.iterdir())`: by name, lexicographically. -/
def nameLe (x y : FS) : Prop := lexLe (strBytes (fsName x)) (strBytes (fsName y)) = true

instance : DecidableRel nameLe := fun x y =>
  inferInstanceAs (Decidable (lexLe (strBytes (fsName x)) (strBytes (fsName y)) = true))

/-- Python `name.startswith(".")`. -/
def startsDot (s : String) : Bool :=
  match s.data with
  | c :: _ => c == '.'
  | [] => false

/-- The filter of the `toEntry` list comprehension:
`not (exclude_git and child.name == ".git") and not child.name.startswith(".")`. -/
def filterKids (excl : Bool) (cs : List FS) : List FS :=
  cs.filter (fun c => !(excl && (fsName c == ".git")) && !startsDot (fsName c))

/-- The all-zero sentinel hash substituted for an unreadable file. -/
def zeros40 : String := "0000000000000000000000000000000000000000"

/-- Embedding of `bytes.fromhex` on the hex fragment used by the code: pairs
of hex digits; `none` is `ValueError`. -/
def fromHex : List Char → Option Bytes
  | [] => some []
  | a :: b :: rest => do
    let x ← hexDigitVal a.toNat
    let y ← hexDigitVal b.toNat
    let r ← fromHex rest
    some ((x * 16 + y) :: r)
  | _ => none

/-- A `(mode, name, hash)` triple returned by `toEntry`. -/
abbrev Entry := String × String × String

/-- Serialization of tree entries (`b"".join(m.encode() + b" " + n.encode() +
b"\0" + bytes.fromhex(h) ...)`). -/
def serializeEntries : List Entry → Option Bytes
  | [] => some []
  | (m, n, h) :: rest => do
    let hb ← fromHex h.data
    let r ← serializeEntries rest
    some (strBytes m ++ 32 :: strBytes n ++ 0 :: hb ++ r)

/-- Embedding of the recursive walk of `toEntry` over a sibling list, threading
the object store: a readable file is stored as a blob with mode `100644`, an
unreadable file yields the all-zero sentinel hash and the walk continues, and
a directory recursively builds its visible children in sorted order
(`exclude_git` is `False` on every recursive call), serializes them and stores
the tree.  Fuel-driven; fuel bounding the node count suffices since every
recursive call decrements it. -/
def buildList : Nat → Store → List FS → Option (List Entry × Store)
  | _, st, [] => some ([], st)
  | 0, _, _ :: _ => none
  | fuel + 1, st, FS.file n c :: ts =>
    match c with
    | some bytes =>
      let r := write_object st "blob" bytes
      do
        let (es, st') ← buildList fuel r.2 ts
        some (("100644", n, r.1) :: es, st')
    | none => do
      let (es, st') ← buildList fuel st ts
      some (("100644", n, zeros40) :: es, st')
  | fuel + 1, st, FS.dir n cs :: ts => do
    let (entries, st') ← buildList fuel st (filterKids false (List.insertionSort nameLe cs))
    let bs ← serializeEntries entries
    let r := write_object st' "tree" bs
    let (es, st'') ← buildList fuel r.2 ts
    some (("40000", n, r.1) :: es, st'')

/-- Embedding of `write_tree` (lines 193–222): the top-level `toEntry` call on
the root directory with `exclude_git=True`; returns the root tree hash and the
updated store. -/
def write_tree (fuel : Nat) (st : Store) (root : List FS) : Option (String × Store) := do
  let (entries, st') ← buildList fuel st (filterKids true (List.insertionSort nameLe root))
  let bs ← serializeEntries entries
  some (write_object st' "tree" bs)

/-- The sixteen lowercase hex digit characters. -/
def hexDigitChars : List Char := "0123456789abcdef".data

/-- The three-file directory of the tree-ordering scenario: files named
`b`, `a`, `c` (in unsorted directory order). -/
def rootBAC : List FS :=
  [FS.file "b" (some [66]), FS.file "a" (some [65]), FS.file "c" (some [67])]

/-! ## Helper lemmas -/

theorem contBytes_stop (prev size off : Nat) (rest : Bytes) (h : prev &&& 128 = 0) :
    contBytes prev size off rest = .ok (size, rest) := by
  cases rest <;> simp [contBytes, h]

theorem land127_lt (x : Nat) (h : x < 128) : x &&& 127 = x := by
  revert h; revert x; decide

theorem land128_lt (x : Nat) (h : x < 128) : x &&& 128 = 0 := by
  revert h; revert x; decide

theorem land127_hi (x : Nat) (h : x < 128) : (x + 128) &&& 127 = x := by
  revert h; revert x; decide

theorem land128_hi (x : Nat) (h : x < 128) : (x + 128) &&& 128 ≠ 0 := by
  revert h; revert x; decide

theorem parseLen_replicate (n : Nat) (rest : Bytes) :
    parseLen (List.replicate n 1 ++ 0 :: rest) = some (n, rest) := by
  induction n with
  | zero => simp [parseLen]
  | succ k ih => simp [List.replicate_succ, parseLen, ih]

theorem zdecompObj_zcompress (bs extra : Bytes) :
    zdecompObj (zcompress bs ++ extra) = some (bs, extra) := by
  have h : zcompress bs ++ extra
      = 120 :: 156 :: (List.replicate bs.length 1 ++ 0 :: (bs ++ extra)) := by
    simp [zcompress]
  rw [h]
  simp only [zdecompObj, parseLen_replicate, Option.some_bind]
  simp [takeExact, List.take_left, List.drop_left]

theorem zdecompress_zcompress (bs : Bytes) : zdecompress (zcompress bs) = some bs := by
  have h := zdecompObj_zcompress bs []
  simp only [List.append_nil] at h
  simp [zdecompress, h]

theorem splitFirst_not_mem {sep : Nat} {l : Bytes} (h : sep ∉ l) :
    splitFirst sep l = none := by
  induction l with
  | nil => rfl
  | cons b rest ih =>
    simp at h
    simp [splitFirst, Ne.symm h.1, ih h.2]

theorem splitFirst_append {sep : Nat} (pre rest : Bytes) (h : sep ∉ pre) :
    splitFirst sep (pre ++ sep :: rest) = some (pre, rest) := by
  induction pre with
  | nil => simp [splitFirst]
  | cons b p ih =>
    simp at h
    simp [splitFirst, Ne.symm h.1, ih h.2]

theorem splitAll_ne_nil (sep : Nat) (l : Bytes) : splitAll sep l ≠ [] := by
  cases l with
  | nil => simp [splitAll]
  | cons b rest =>
    by_cases hb : b = sep <;> simp [splitAll, hb] <;> split <;> simp_all

theorem splitAll_not_mem {sep : Nat} {l : Bytes} (h : sep ∉ l) : splitAll sep l = [l] := by
  induction l with
  | nil => rfl
  | cons b rest ih =>
    simp at h
    rw [splitAll, if_neg (Ne.symm h.1), ih h.2]

theorem splitAll_two {sep : Nat} (a b : Bytes) (ha : sep ∉ a) (hb : sep ∉ b) :
    splitAll sep (a ++ sep :: b) = [a, b] := by
  induction a with
  | nil => simp [splitAll, splitAll_not_mem hb]
  | cons x xs ih =>
    simp at ha
    rw [List.cons_append, splitAll, if_neg (Ne.symm ha.1), ih ha.2]

theorem natDecimalAux_digits (fuel n : Nat) :
    ∀ b ∈ natDecimalAux fuel n, 48 ≤ b ∧ b ≤ 57 := by
  induction fuel generalizing n with
  | zero => simp [natDecimalAux]
  | succ f ih =>
    cases n with
    | zero => simp [natDecimalAux]
    | succ m =>
      intro b hb
      rw [natDecimalAux] at hb
      rcases List.mem_append.mp hb with h | h
      · exact ih _ b h
      · simp at h
        omega

theorem natDecimal_digits (n : Nat) : ∀ b ∈ natDecimal n, 48 ≤ b ∧ b ≤ 57 := by
  unfold natDecimal
  split
  · simp
  · exact natDecimalAux_digits n n

theorem lookup_insert (st : Store) (k : String) (v : Bytes) :
    lookupStore (insertStore st k v) k = some v := by
  simp [insertStore, lookupStore]

/-! ## Claim theorems -/

/-- C7: decoding the two-byte sequence `0x9C 0x03` with the pack entry-header
decoder `next_size_type` yields kind `commit` and size 60. -/
theorem header_varint_vector : next_size_type [156, 3] = .ok ("commit", 60, []) := by rfl

/-- C3 counterexample: the delta stream encoding Copy{offset=4,size=5},
Insert "slow ", Copy{offset=10,size=9} (after the two size varints 19 and 20)
over base "The quick brown fox" resolves to "quickslow brown fox" — the
claimed target "quick slow brown fox" is not produced, since the first copy
takes only the five bytes "quick" without the following space. -/
theorem delta_scenario_counterexample :
    resolveDelta (strBytes "The quick brown fox")
        ([19, 20, 145, 4, 5, 5] ++ strBytes "slow " ++ [145, 10, 9])
      = .ok (strBytes "quickslow brown fox") ∧
    strBytes "quickslow brown fox" ≠ strBytes "quick slow brown fox" :=
  ⟨by rfl, by decide⟩

/-- C3 amended: with the first copy widened to Copy{offset=4,size=6} (so that
it includes the space after "quick"), the delta stream Copy{4,6},
Insert "slow ", Copy{10,9} over base "The quick brown fox" resolves to
exactly "quick slow brown fox". -/
theorem delta_scenario :
    resolveDelta (strBytes "The quick brown fox")
        ([19, 20, 145, 4, 6, 5] ++ strBytes "slow " ++ [145, 10, 9])
      = .ok (strBytes "quick slow brown fox") := by rfl

/-- C5 counterexample: a one-entry pack whose header byte `0x60` decodes to
`ofs_delta` is processed without any error: the entry loop succeeds, stores
nothing (the store stays empty), and the cursor is left at the entry body
(which is not consumed). -/
theorem ofs_delta_counterexample :
    processEntries 1 [] [96, 9, 9, 9] = .ok [] ∧
    processEntry [] [96, 9, 9, 9] = .ok ([], [9, 9, 9]) :=
  ⟨by rfl, by rfl⟩

/-- C5 amended: when the entry-header type bits decode to `ofs_delta`, the
pack parser does not fail (no `UnsupportedPackEntry` error exists in the
code): the entry falls through both branches of the loop body, so it is
silently skipped — no object is stored, the store is returned unchanged, and
the cursor stays at the entry body rather than advancing past it. -/
theorem ofs_delta_skipped (st : Store) (pf rest : Bytes) (sz : Nat)
    (h : next_size_type pf = .ok ("ofs_delta", sz, rest)) :
    processEntry st pf = .ok (st, rest) := by
  simp [processEntry, h, Bind.bind, Except.bind]

theorem ofs_delta_skipped_witness : processEntry [] [96] = .ok ([], []) :=
  ofs_delta_skipped [] [96] [] 0 (by rfl)

/-- C9 counterexample: a delta copy op with offset 0 and size 5 against the
three-byte base `[1, 2, 3]` resolves successfully to just `[1, 2, 3]` — the
resolver silently appends fewer than `size` bytes (Python slice clamping)
instead of surfacing a typed error. -/
theorem silent_truncation_counterexample :
    resolveDelta [1, 2, 3] [3, 5, 145, 0, 5] = .ok [1, 2, 3] ∧
    ([1, 2, 3] : Bytes).length < 5 :=
  ⟨by rfl, by decide⟩

/-- C9 amended: the delta resolver does not fail on an out-of-range copy or a
truncated insert; it clamps, Python-slice style.  A copy op with one offset
byte and one size byte appends exactly `base[offset:offset+size]`, whose
length is `min size (len(base) - offset)` — silently shorter than `size` when
the span extends past the end of the base; an insert whose literal run is cut
short by the end of the stream appends just the remaining bytes.  (The
unreadable-file sentinel of the tree builder is covered by the C8 embedding:
`buildList` substitutes the all-zero hash and continues.) -/
theorem delta_copy_clamps (base : Bytes) (off sz : Nat) :
    resolveDelta base [0, 0, 145, off, sz] = .ok ((base.drop off).take sz) ∧
    ((base.drop off).take sz).length = min sz (base.length - off) ∧
    (∀ n ins, n < 128 → ins.length ≤ n →
      resolveDelta base (0 :: 0 :: n :: ins) = .ok ins) := by
  refine ⟨?_, ?_, ?_⟩
  · simp [resolveDelta, next_size, contBytes, deltaLoop, copyField, Bind.bind, Except.bind,
      (show (145 &&& 2 : Nat) = 0 by decide), (show (145 &&& 4 : Nat) = 0 by decide),
      (show (145 &&& 8 : Nat) = 0 by decide), (show (145 &&& 32 : Nat) = 0 by decide),
      (show (145 &&& 64 : Nat) = 0 by decide)]
  · simp
  · intro n ins hn hlen
    simp [resolveDelta, next_size, contBytes, deltaLoop, Bind.bind, Except.bind,
      land128_lt n hn, List.drop_eq_nil_of_le hlen, List.take_of_length_le hlen]

theorem delta_copy_clamps_witness :
    resolveDelta [10, 20, 30] (0 :: 0 :: 2 :: [5, 6]) = .ok [5, 6] :=
  (delta_copy_clamps [10, 20, 30] 1 7).2.2 2 [5, 6] (by decide) (by decide)

/-- Varint correctness of the continuation loop over the spec-side encoder:
consuming `encSizeAux f m` (for `0 < m ≤ f`) after a byte with its
continuation bit set accumulates exactly `m` shifted to the current offset. -/
theorem contBytes_encAux (f : Nat) : ∀ m prev acc off rest, 0 < m → m ≤ f →
    prev &&& 128 ≠ 0 →
    contBytes prev acc off (encSizeAux f m ++ rest) = .ok (acc + m <<< off, rest) := by
  induction f with
  | zero => intro m _ _ _ _ hm hf _; omega
  | succ f ih =>
    intro m prev acc off rest hm hf hprev
    rw [encSizeAux]
    by_cases h : m < 128
    · rw [if_pos h]
      simp [contBytes, hprev, land127_lt m h,
        contBytes_stop _ _ _ _ (land128_lt m h)]
    · rw [if_neg h]
      have hdiv : 0 < m / 128 := Nat.div_pos (by omega) (by norm_num)
      have hdf : m / 128 ≤ f := by
        have := Nat.div_lt_self hm (by norm_num : (1:Nat) < 128)
        omega
      have hmod : m % 128 < 128 := Nat.mod_lt m (by norm_num)
      rw [List.cons_append, contBytes, if_neg hprev,
        ih (m / 128) _ _ _ rest hdiv hdf (land128_hi _ hmod),
        land127_hi _ hmod]
      congr 2
      rw [Nat.shiftLeft_eq, Nat.shiftLeft_eq, Nat.shiftLeft_eq, pow_add]
      have hm128 : m % 128 + 128 * (m / 128) = m := Nat.mod_add_div m 128
      calc acc + m % 128 * 2 ^ off + m / 128 * (2 ^ off * 2 ^ 7)
          = acc + (m % 128 + 128 * (m / 128)) * 2 ^ off := by ring
        _ = acc + m * 2 ^ off := by rw [hm128]

/-- Varint round-trip: `next_size` decodes the spec-side encoding of `n` to
exactly `n` and leaves the rest of the stream untouched. -/
theorem next_size_encSize (n : Nat) (rest : Bytes) :
    next_size (encSize n ++ rest) = .ok (n, rest) := by
  unfold encSize
  rw [encSizeAux]
  by_cases h : n < 128
  · rw [if_pos h]
    simp [next_size, land127_lt n h, contBytes_stop _ _ _ _ (land128_lt n h)]
  · rw [if_neg h]
    have hdiv : 0 < n / 128 := Nat.div_pos (by omega) (by norm_num)
    have hmod : n % 128 < 128 := Nat.mod_lt n (by omega)
    rw [List.cons_append]
    show contBytes _ (_ &&& 127) 7 _ = _
    rw [land127_hi _ hmod,
      contBytes_encAux n (n / 128) _ _ _ rest hdiv (Nat.div_le_self n 128) (land128_hi _ hmod)]
    congr 2
    rw [Nat.shiftLeft_eq]
    show n % 128 + n / 128 * 2 ^ 7 = n
    have := Nat.mod_add_div n 128
    omega

/-- C10: the two leading declared-size varints of a delta stream are skipped
and never checked: the resolver output is a function of the base bytes and the
op bytes alone, so any two declared sizes — right or wrong — give the same
result, and two delta streams differing only in the declared sizes resolve to
byte-identical targets. -/
theorem delta_declared_sizes_ignored (base : Bytes) (a1 b1 a2 b2 : Nat) (ops : Bytes) :
    resolveDelta base (encSize a1 ++ encSize b1 ++ ops)
      = deltaLoop ops.length base ops [] ∧
    resolveDelta base (encSize a1 ++ encSize b1 ++ ops)
      = resolveDelta base (encSize a2 ++ encSize b2 ++ ops) := by
  have key : ∀ a b : Nat, resolveDelta base (encSize a ++ encSize b ++ ops)
      = deltaLoop ops.length base ops [] := by
    intro a b
    rw [resolveDelta, List.append_assoc, next_size_encSize]
    simp [Bind.bind, Except.bind, next_size_encSize]
  exact ⟨key a1 b1, (key a1 b1).trans (key a2 b2).symm⟩

/-- Header parsing succeeds on any well-shaped header, with no constraint on
the kind token or the declared-length bytes beyond being NUL- and space-free. -/
theorem parseObject_ok (tyB lenB c : Bytes) (s : String)
    (h0 : (0 : Nat) ∉ tyB) (h32 : (32 : Nat) ∉ tyB)
    (l0 : (0 : Nat) ∉ lenB) (l32 : (32 : Nat) ∉ lenB)
    (hdec : bytesDecode tyB = some s) :
    parseObject (tyB ++ 32 :: lenB ++ 0 :: c) = .ok (s, c) := by
  have hsp : splitFirst 0 (tyB ++ 32 :: lenB ++ 0 :: c) = some (tyB ++ 32 :: lenB, c) := by
    have hmem : (0 : Nat) ∉ tyB ++ 32 :: lenB := by
      simp [List.mem_append, List.mem_cons, h0, l0]
    simpa [List.append_assoc] using splitFirst_append (tyB ++ 32 :: lenB) c hmem
  unfold parseObject
  rw [hsp]
  simp [splitAll_two tyB lenB h32 l32, hdec]

/-- C1: for every kind token in {commit, tree, blob, tag} and every content
byte string, reading back the hash returned by `write_object` yields exactly
the original pair. -/
theorem object_roundtrip (st : Store) (kind : String) (content : Bytes)
    (h : kind = "commit" ∨ kind = "tree" ∨ kind = "blob" ∨ kind = "tag") :
    read_object (write_object st kind content).2 (write_object st kind content).1
      = .ok (kind, content) := by
  have hty0 : (0 : Nat) ∉ strBytes kind := by
    rcases h with h | h | h | h <;> subst h <;> decide
  have hty32 : (32 : Nat) ∉ strBytes kind := by
    rcases h with h | h | h | h <;> subst h <;> decide
  have hdec : bytesDecode (strBytes kind) = some kind := by
    rcases h with h | h | h | h <;> subst h <;> rfl
  have hl := natDecimal_digits content.length
  have hl0 : (0 : Nat) ∉ natDecimal content.length := fun hm => by
    have := hl _ hm; omega
  have hl32 : (32 : Nat) ∉ natDecimal content.length := fun hm => by
    have := hl _ hm; omega
  have hshape : (strBytes kind ++ 32 :: natDecimal content.length ++ [0]) ++ content
      = strBytes kind ++ 32 :: natDecimal content.length ++ 0 :: content := by simp
  simp only [write_object, read_object, lookup_insert, zdecompress_zcompress, hshape]
  exact parseObject_ok _ _ _ _ hty0 hty32 hl0 hl32 hdec

theorem object_roundtrip_witness :
    read_object (write_object [] "blob" [104, 105]).2 (write_object [] "blob" [104, 105]).1
      = .ok ("blob", [104, 105]) :=
  object_roundtrip [] "blob" [104, 105] (Or.inr (Or.inr (Or.inl rfl)))

theorem sha1_length (msg : Bytes) : (sha1 msg).length = 20 := by
  simp [sha1, be4]

theorem bytesHex_length (bs : Bytes) : (bytesHex bs).length = 2 * bs.length := by
  show ((bs.map fun b => [hexChar (b / 16 % 16), hexChar (b % 16)]).flatten).length
      = 2 * bs.length
  induction bs with
  | nil => rfl
  | cons b t ih =>
    simp only [List.map_cons, List.flatten_cons, List.length_append, ih, List.length_cons,
      List.length_nil, List.length_map]
    omega

theorem bytesHex_mem (bs : Bytes) : ∀ ch ∈ (bytesHex bs).data, ch ∈ hexDigitChars := by
  have hex16 : ∀ m, m < 16 → hexChar m ∈ hexDigitChars := by decide
  intro ch hch
  have hch : ch ∈ (bs.map fun b => [hexChar (b / 16 % 16), hexChar (b % 16)]).flatten := hch
  simp only [List.mem_flatten, List.mem_map] at hch
  obtain ⟨l, ⟨b, _, rfl⟩, hcl⟩ := hch
  simp only [List.mem_cons, List.not_mem_nil, or_false] at hcl
  rcases hcl with h | h <;> subst h <;>
    exact hex16 _ (Nat.mod_lt _ (by norm_num))

/-- C2: `write_object` returns the lowercase hex SHA-1 digest of
`"<kind> <len(content)>\0" + content` with the length in decimal; the hash is
a pure function of `(kind, content)` — identical inputs give identical hashes
in any store — and it is a 40-character string over the lowercase hex
alphabet. -/
theorem hash_identity (st1 st2 : Store) (ty : String) (content : Bytes) :
    (write_object st1 ty content).1
      = bytesHex (sha1 (strBytes ty ++ 32 :: natDecimal content.length ++ 0 :: content)) ∧
    (write_object st1 ty content).1 = (write_object st2 ty content).1 ∧
    (write_object st1 ty content).1.length = 40 ∧
    ∀ ch ∈ (write_object st1 ty content).1.data, ch ∈ hexDigitChars := by
  have hshape : (strBytes ty ++ 32 :: natDecimal content.length ++ [0]) ++ content
      = strBytes ty ++ 32 :: natDecimal content.length ++ 0 :: content := by simp
  refine ⟨?_, rfl, ?_, ?_⟩
  · show bytesHex (sha1 ((strBytes ty ++ 32 :: natDecimal content.length ++ [0]) ++ content))
        = _
    rw [hshape]
  · show (bytesHex (sha1 _)).length = 40
    rw [bytesHex_length, sha1_length]
  · exact fun ch hch => bytesHex_mem _ ch hch

/-- C4 counterexample: a stored object whose decompressed bytes are
`"blah -7q\0\x05"` — an unknown kind token and a non-numeric declared
length — is read back successfully as `("blah", [5])` instead of failing with
`DecodeError` as the claim requires. -/
theorem read_taxonomy_counterexample :
    read_object [("k", zcompress (strBytes "blah -7q" ++ [0, 5]))] "k"
      = .ok ("blah", [5]) := by rfl

/-- C4 amended: `read_object` fails with `NotFound` when the path is absent
and with `DecodeError` when decompression fails, when the decompressed bytes
have no NUL, or when the header before the NUL does not consist of exactly two
space-separated fields; but the declared length is never parsed and the kind
token is never validated, so any NUL- and space-free kind and length bytes are
accepted and returned as-is — including non-numeric lengths and unknown kind
tokens. -/
theorem read_taxonomy (st : Store) (sha : String) :
    (lookupStore st sha = none →
      ∃ e, read_object st sha = .error e ∧ isNotFound e) ∧
    (∀ bs, lookupStore st sha = some bs → zdecompress bs = none →
      ∃ e, read_object st sha = .error e ∧ isDecodeError e) ∧
    (∀ bs d, lookupStore st sha = some bs → zdecompress bs = some d → (0 : Nat) ∉ d →
      ∃ e, read_object st sha = .error e ∧ isDecodeError e) ∧
    (∀ bs h c, lookupStore st sha = some bs →
      zdecompress bs = some (h ++ 0 :: c) → (0 : Nat) ∉ h → (32 : Nat) ∉ h →
      ∃ e, read_object st sha = .error e ∧ isDecodeError e) ∧
    (∀ bs tyB lenB c s, lookupStore st sha = some bs →
      zdecompress bs = some (tyB ++ 32 :: lenB ++ 0 :: c) →
      (0 : Nat) ∉ tyB → (32 : Nat) ∉ tyB → (0 : Nat) ∉ lenB → (32 : Nat) ∉ lenB →
      bytesDecode tyB = some s →
      read_object st sha = .ok (s, c)) := by
  refine ⟨?_, ?_, ?_, ?_, ?_⟩
  · intro h
    exact ⟨.fileNotFound, by simp [read_object, h], rfl⟩
  · intro bs h1 h2
    exact ⟨.zlibError, by simp [read_object, h1, h2], Or.inl rfl⟩
  · intro bs d h1 h2 h3
    exact ⟨.valueError, by simp [read_object, h1, h2, parseObject, splitFirst_not_mem h3],
      Or.inr rfl⟩
  · intro bs h c h1 h2 hh0 hh32
    have hsp : splitFirst 0 (h ++ 0 :: c) = some (h, c) := splitFirst_append h c hh0
    exact ⟨.valueError,
      by simp [read_object, h1, h2, parseObject, hsp, splitAll_not_mem hh32], Or.inr rfl⟩
  · intro bs tyB lenB c s h1 h2 ht0 ht32 hl0 hl32 hdec
    simp only [read_object, h1, h2]
    exact parseObject_ok tyB lenB c s ht0 ht32 hl0 hl32 hdec

theorem read_taxonomy_witness :
    read_object [("k", zcompress (strBytes "xyz 12a" ++ [0, 7]))] "k" = .ok ("xyz", [7]) :=
  (read_taxonomy [("k", zcompress (strBytes "xyz 12a" ++ [0, 7]))] "k").2.2.2.2
    (zcompress (strBytes "xyz 12a" ++ [0, 7])) (strBytes "xyz") (strBytes "12a") [7] "xyz"
    (by rfl) (by rfl) (by decide) (by decide) (by decide) (by decide) (by rfl)

theorem hexDigitVal_hexByte (m : Nat) (h : m < 16) : hexDigitVal (hexByte m) = some m := by
  revert h; revert m; decide

theorem parseHex4_hex4 (n : Nat) (h : n < 65536) (rest : Bytes) :
    parseHex4 (hex4 n ++ rest) = some n := by
  have h1 : n / 4096 % 16 < 16 := Nat.mod_lt _ (by norm_num)
  have h2 : n / 256 % 16 < 16 := Nat.mod_lt _ (by norm_num)
  have h3 : n / 16 % 16 < 16 := Nat.mod_lt _ (by norm_num)
  have h4 : n % 16 < 16 := Nat.mod_lt _ (by norm_num)
  simp [hex4, parseHex4, hexDigitVal_hexByte _ h1, hexDigitVal_hexByte _ h2,
    hexDigitVal_hexByte _ h3, hexDigitVal_hexByte _ h4]
  omega

theorem pktFrame_cons (p : Bytes) (ps : List Bytes) :
    pktFrame (p :: ps) = hex4 (p.length + 4) ++ (p ++ pktFrame ps) := by
  simp [pktFrame, List.append_assoc]

theorem pktFrame_length (ps : List Bytes) : ps.length < (pktFrame ps).length := by
  induction ps with
  | nil => simp [pktFrame]
  | cons p t ih =>
    rw [pktFrame_cons]
    simp only [List.length_append, List.length_cons, hex4]
    simp at ih ⊢
    omega

theorem pktLines_step (f : Nat) (bs : Bytes) (len : Nat) (r : List Bytes)
    (hp : parseHex4 bs = some len) (h0 : len ≠ 0)
    (hrec : pktLines f (bs.drop len) = .ok r) :
    pktLines (f + 1) bs = .ok ((bs.drop 4).take (len - 4) :: r) := by
  cases bs with
  | nil => simp [parseHex4] at hp
  | cons b bs =>
    cases len with
    | zero => exact absurd rfl h0
    | succ L =>
      rw [List.drop_succ_cons] at hrec
      simp only [pktLines, hp]
      simp [Bind.bind, Except.bind, hrec]

theorem pktLines_pktFrame (ps : List Bytes) : ∀ fuel, ps.length < fuel →
    (∀ p ∈ ps, p.length + 4 < 65536) →
    pktLines fuel (pktFrame ps) = .ok ps := by
  induction ps with
  | nil =>
    intro fuel hf _
    cases fuel with
    | zero => omega
    | succ f => rfl
  | cons p t ih =>
    intro fuel hf hlen
    cases fuel with
    | zero => omega
    | succ f =>
    have hL : p.length + 4 < 65536 := hlen p (by simp)
    rw [pktFrame_cons]
    have hparse := parseHex4_hex4 (p.length + 4) hL (p ++ pktFrame t)
    have hlen4 : (hex4 (p.length + 4) ++ p).length = p.length + 4 := by
      simp only [List.length_append, hex4, List.length_cons, List.length_nil]
      omega
    have hdropL : (hex4 (p.length + 4) ++ (p ++ pktFrame t)).drop (p.length + 4)
        = pktFrame t := by
      rw [← List.append_assoc]
      have hd := List.drop_left (hex4 (p.length + 4) ++ p) (pktFrame t)
      rwa [hlen4] at hd
    have hdrop4 : (hex4 (p.length + 4) ++ (p ++ pktFrame t)).drop 4 = p ++ pktFrame t := by
      have hd := List.drop_left (hex4 (p.length + 4)) (p ++ pktFrame t)
      rwa [show (hex4 (p.length + 4)).length = 4 from rfl] at hd
    have htail : t.length < f := by
      simp only [List.length_cons] at hf
      omega
    have hrec : pktLines f ((hex4 (p.length + 4) ++ (p ++ pktFrame t)).drop (p.length + 4))
        = .ok t := by
      rw [hdropL]
      exact ih f htail (fun q hq => hlen q (by simp [hq]))
    rw [pktLines_step f _ (p.length + 4) t hparse (by omega) hrec, hdrop4,
      Nat.add_sub_cancel, List.take_left]

/-- C6: demultiplexing a pkt-line framed fetch response body: the raw pack
stream handed to the entry loop is the concatenation of the payloads of every
line after the first, each with its one-byte sideband marker removed, with the
first 8 bytes (pack signature and version) discarded; the next 4 bytes are
read as the big-endian object count and the remainder is the entry stream the
loop consumes. -/
theorem pack_stream_demux (ps : List Bytes)
    (hlen : ∀ p ∈ ps, p.length + 4 < 65536)
    (hbig : 4 ≤ (((ps.drop 1).map (List.drop 1)).flatten.drop 8).length) :
    extractPack (pktFrame ps)
      = .ok (beNat4 ((((ps.drop 1).map (List.drop 1)).flatten.drop 8).take 4),
             (((ps.drop 1).map (List.drop 1)).flatten.drop 8).drop 4) := by
  have hlines := pktLines_pktFrame ps (pktFrame ps).length (pktFrame_length ps) hlen
  unfold extractPack
  rw [hlines]
  simp only [Bind.bind, Except.bind]
  rw [if_pos hbig]

theorem pack_stream_demux_witness :
    extractPack (pktFrame [[97], [1, 80, 65, 67, 75, 0, 0, 0, 2], [1, 0, 0, 0, 0]])
      = .ok (0, []) :=
  pack_stream_demux [[97], [1, 80, 65, 67, 75, 0, 0, 0, 2], [1, 0, 0, 0, 0]]
    (by decide) (by decide)

theorem lexLe_total (a : Bytes) : ∀ b, lexLe a b = true ∨ lexLe b a = true := by
  induction a with
  | nil => intro b; left; rfl
  | cons x xs ih =>
    intro b
    cases b with
    | nil => right; rfl
    | cons y ys =>
      by_cases h1 : x < y
      · left; simp [lexLe, h1]
      · by_cases h2 : y < x
        · right; simp [lexLe, h2]
        · rcases ih ys with h | h
          · left; simp [lexLe, h1, h2, h]
          · right; simp [lexLe, h1, h2, h]

theorem lexLe_trans (a : Bytes) : ∀ b c, lexLe a b = true → lexLe b c = true →
    lexLe a c = true := by
  induction a with
  | nil => intro b c _ _; rfl
  | cons x xs ih =>
    intro b c hab hbc
    cases b with
    | nil => simp [lexLe] at hab
    | cons y ys =>
      cases c with
      | nil => simp [lexLe] at hbc
      | cons z zs =>
        by_cases h1 : x < y
        · by_cases h2 : y < z
          · simp [lexLe, Nat.lt_trans h1 h2]
          · by_cases h3 : z < y
            · simp [lexLe, h2, h3] at hbc
            · have hyz : y = z := by omega
              subst hyz
              simp [lexLe, h1]
        · by_cases h2 : y < x
          · simp [lexLe, h1, h2] at hab
          · have hxy : x = y := by omega
            subst hxy
            by_cases h3 : x < z
            · simp [lexLe, h3]
            · by_cases h4 : z < x
              · simp [lexLe, h3, h4] at hbc
              · simp only [lexLe, if_neg h1, if_neg h2] at hab
                simp only [lexLe, if_neg h3, if_neg h4] at hbc ⊢
                exact ih ys zs hab hbc

instance : IsTotal FS nameLe :=
  ⟨fun a b => lexLe_total (strBytes (fsName a)) (strBytes (fsName b))⟩

instance : IsTrans FS nameLe :=
  ⟨fun a b c => lexLe_trans (strBytes (fsName a)) (strBytes (fsName b)) (strBytes (fsName c))⟩

theorem buildList_names (fuel : Nat) : ∀ st ts es st',
    buildList fuel st ts = some (es, st') → es.map (fun e => e.2.1) = ts.map fsName := by
  induction fuel with
  | zero =>
    intro st ts es st' h
    cases ts with
    | nil =>
      simp [buildList] at h
      simp [h.1]
    | cons a b => simp [buildList] at h
  | succ f ih =>
    intro st ts es st' h
    cases ts with
    | nil =>
      simp [buildList] at h
      simp [h.1]
    | cons hd tl =>
      cases hd with
      | file n c =>
        cases c with
        | some bytes =>
          cases hrec : buildList f (write_object st "blob" bytes).2 tl with
          | none => simp [buildList, hrec] at h
          | some p =>
            obtain ⟨es1, st1⟩ := p
            simp only [buildList, hrec, Bind.bind, Option.bind, Option.some.injEq,
              Prod.mk.injEq] at h
            rw [← h.1]
            simp [fsName, ih _ _ _ _ hrec]
        | none =>
          cases hrec : buildList f st tl with
          | none => simp [buildList, hrec] at h
          | some p =>
            obtain ⟨es1, st1⟩ := p
            simp only [buildList, hrec, Bind.bind, Option.bind, Option.some.injEq,
              Prod.mk.injEq] at h
            rw [← h.1]
            simp [fsName, ih _ _ _ _ hrec]
      | dir n cs =>
        cases hkids : buildList f st (filterKids false (List.insertionSort nameLe cs)) with
        | none => simp [buildList, hkids] at h
        | some pk =>
          obtain ⟨entries, st1⟩ := pk
          cases hser : serializeEntries entries with
          | none => simp [buildList, hkids, hser] at h
          | some bs =>
            cases hrec : buildList f (write_object st1 "tree" bs).2 tl with
            | none => simp [buildList, hkids, hser, hrec] at h
            | some p =>
              obtain ⟨es1, st2⟩ := p
              simp only [buildList, hkids, hser, hrec, Bind.bind, Option.bind,
                Option.some.injEq, Prod.mk.injEq] at h
              rw [← h.1]
              simp [fsName, ih _ _ _ _ hrec]

theorem write_object_fst (st1 st2 : Store) (ty : String) (content : Bytes) :
    (write_object st1 ty content).1 = (write_object st2 ty content).1 := rfl

theorem buildList_det (fuel : Nat) : ∀ st1 st2 ts,
    (buildList fuel st1 ts).map Prod.fst = (buildList fuel st2 ts).map Prod.fst := by
  induction fuel with
  | zero => intro st1 st2 ts; cases ts <;> simp [buildList]
  | succ f ih =>
    intro st1 st2 ts
    cases ts with
    | nil => simp [buildList]
    | cons hd tl =>
      cases hd with
      | file n c =>
        cases c with
        | some bytes =>
          have h := ih (write_object st1 "blob" bytes).2 (write_object st2 "blob" bytes).2 tl
          simp only [buildList]
          cases h1 : buildList f (write_object st1 "blob" bytes).2 tl with
          | none =>
            cases h2 : buildList f (write_object st2 "blob" bytes).2 tl with
            | none => rfl
            | some q => rw [h1, h2] at h; simp at h
          | some p =>
            cases h2 : buildList f (write_object st2 "blob" bytes).2 tl with
            | none => rw [h1, h2] at h; simp at h
            | some q =>
              rw [h1, h2] at h
              obtain ⟨e1, s1⟩ := p
              obtain ⟨e2, s2⟩ := q
              simp at h
              simp [Bind.bind, Option.bind, h, write_object_fst st1 st2]
        | none =>
          have h := ih st1 st2 tl
          simp only [buildList]
          cases h1 : buildList f st1 tl with
          | none =>
            cases h2 : buildList f st2 tl with
            | none => rfl
            | some q => rw [h1, h2] at h; simp at h
          | some p =>
            cases h2 : buildList f st2 tl with
            | none => rw [h1, h2] at h; simp at h
            | some q =>
              rw [h1, h2] at h
              obtain ⟨e1, s1⟩ := p
              obtain ⟨e2, s2⟩ := q
              simp at h
              simp [Bind.bind, Option.bind, h]
      | dir n cs =>
        have hkids := ih st1 st2 (filterKids false (List.insertionSort nameLe cs))
        simp only [buildList]
        cases h1 : buildList f st1 (filterKids false (List.insertionSort nameLe cs)) with
        | none =>
          cases h2 : buildList f st2 (filterKids false (List.insertionSort nameLe cs)) with
          | none => rfl
          | some q => rw [h1, h2] at hkids; simp at hkids
        | some p =>
          cases h2 : buildList f st2 (filterKids false (List.insertionSort nameLe cs)) with
          | none => rw [h1, h2] at hkids; simp at hkids
          | some q =>
            rw [h1, h2] at hkids
            obtain ⟨e1, s1⟩ := p
            obtain ⟨e2, s2⟩ := q
            simp at hkids
            rw [hkids]
            cases hser : serializeEntries e2 with
            | none => simp [hser]
            | some bs =>
              have h := ih (write_object s1 "tree" bs).2 (write_object s2 "tree" bs).2 tl
              cases h3 : buildList f (write_object s1 "tree" bs).2 tl with
              | none =>
                cases h4 : buildList f (write_object s2 "tree" bs).2 tl with
                | none => simp [hser, h3, h4]
                | some q2 => rw [h3, h4] at h; simp at h
              | some p2 =>
                cases h4 : buildList f (write_object s2 "tree" bs).2 tl with
                | none => rw [h3, h4] at h; simp at h
                | some q2 =>
                  rw [h3, h4] at h
                  obtain ⟨e3, s3⟩ := p2
                  obtain ⟨e4, s4⟩ := q2
                  simp at h
                  simp [hser, h3, h4, h, write_object_fst s1 s2]

theorem write_tree_det (fuel : Nat) (st1 st2 : Store) (root : List FS) :
    (write_tree fuel st1 root).map Prod.fst = (write_tree fuel st2 root).map Prod.fst := by
  have h := buildList_det fuel st1 st2 (filterKids true (List.insertionSort nameLe root))
  simp only [write_tree]
  cases h1 : buildList fuel st1 (filterKids true (List.insertionSort nameLe root)) with
  | none =>
    cases h2 : buildList fuel st2 (filterKids true (List.insertionSort nameLe root)) with
    | none => rfl
    | some q => rw [h1, h2] at h; simp at h
  | some p =>
    cases h2 : buildList fuel st2 (filterKids true (List.insertionSort nameLe root)) with
    | none => rw [h1, h2] at h; simp at h
    | some q =>
      rw [h1, h2] at h
      obtain ⟨e1, s1⟩ := p
      obtain ⟨e2, s2⟩ := q
      simp at h
      rw [h]
      cases hser : serializeEntries e2 with
      | none => simp [hser]
      | some bs => simp [hser, write_object_fst s1 s2]

/-- C8: tree serialization order and exclusion: the entries a directory build
serializes are exactly its visible children — sorted by name, with
dot-prefixed names (hence also the `.git` metadata directory) excluded; on the
concrete directory with files named b, a, c the serialized entry order is
a, b, c; and the tree hash a build produces is independent of the state of the
object store, so building identical directory contents twice yields the
identical tree hash. -/
theorem tree_order (fuel : Nat) (st : Store) (excl : Bool) (cs : List FS) :
    (∀ es st',
      buildList fuel st (filterKids excl (List.insertionSort nameLe cs)) = some (es, st') →
      es.map (fun e => e.2.1) = (filterKids excl (List.insertionSort nameLe cs)).map fsName) ∧
    List.Pairwise (fun a b => lexLe (strBytes a) (strBytes b) = true)
      ((filterKids excl (List.insertionSort nameLe cs)).map fsName) ∧
    (∀ nm ∈ (filterKids excl (List.insertionSort nameLe cs)).map fsName,
      startsDot nm = false ∧ nm ≠ ".git") ∧
    (buildList 3 [] (filterKids true (List.insertionSort nameLe rootBAC))).map
        (fun p => p.1.map (fun e => e.2.1)) = some ["a", "b", "c"] ∧
    (∀ st2 root, (write_tree fuel st root).map Prod.fst
      = (write_tree fuel st2 root).map Prod.fst) := by
  refine ⟨fun es st' h => buildList_names fuel st _ es st' h, ?_, ?_, by rfl,
    fun st2 root => write_tree_det fuel st st2 root⟩
  · exact ((List.sorted_insertionSort nameLe cs).filter _).map fsName (fun a b hr => hr)
  · intro nm hnm
    obtain ⟨x, hx, rfl⟩ := List.mem_map.mp hnm
    obtain ⟨_, hpred⟩ := List.mem_filter.mp hx
    simp only [Bool.and_eq_true, Bool.not_eq_true'] at hpred
    refine ⟨hpred.2, fun hgit => ?_⟩
    rw [hgit] at hpred
    exact absurd hpred.2 (by decide)

theorem tree_order_witness :
    ([] : List Entry).map (fun e => e.2.1)
      = (filterKids true (List.insertionSort nameLe ([] : List FS))).map fsName :=
  (tree_order 0 [] true []).1 [] [] (by rfl)

end GitClone
